import Mathlib

/-!
Shallow embedding of the Raman BVP solver and ASE integrator of
`raman/raman.py` (class `RamanSolver`), together with proofs relating the
code's computations to the specified closed-form expressions.

Modelling conventions:
* numpy 1-D arrays are `List α`; 2-D arrays indexed `[frequency, z]` are
  `List (List α)` (the ODE part) or `List (ℕ → ℝ)` (the ASE part, whose
  per-row operations are all pointwise along the z axis);
* numpy slicing `a[i+1:]` / `a[:i]` is `List.drop (i+1)` / `List.take i`,
  elementwise products are `List.zipWith`, `np.sum(..., axis=0)` is `List.sum`;
* out-of-range indexing is total via `List.getD` with default `0`;
* exact real arithmetic (`ℝ`, or an arbitrary `Field` where the code is pure
  arithmetic) stands for the floating-point arithmetic of the source.
-/

namespace Raman

/-- numpy column slice `power_spectrum[:, z_ind]` of a matrix stored by rows. -/
def column {α : Type} [Zero α] (m : List (List α)) (z_ind : ℕ) : List α :=
  m.map (fun row => row.getD z_ind 0)

/-- Source `_ode_raman`, local `raman_gain`:
`np.sum(cr_raman[f_ind+1:] * power_spectrum[f_ind+1:, z_ind])`. -/
def raman_gain {α : Type} [Field α] (cr_raman : List α)
    (power_spectrum : List (List α)) (f_ind z_ind : ℕ) : α :=
  (List.zipWith (fun c row => c * row.getD z_ind 0)
    (cr_raman.drop (f_ind + 1)) (power_spectrum.drop (f_ind + 1))).sum

/-- Source `_ode_raman`, local `raman_loss`:
`vibrational_loss = freq_array[f_ind] / freq_array[:f_ind]` and
`np.sum(vibrational_loss * cr_raman[:f_ind] * power_spectrum[:f_ind, z_ind])`. -/
def raman_loss {α : Type} [Field α] (freq_array cr_raman : List α)
    (power_spectrum : List (List α)) (f_ind z_ind : ℕ) : α :=
  (List.zipWith (fun c row => c * row.getD z_ind 0)
    (List.zipWith (· * ·)
      ((freq_array.take f_ind).map (fun fj => freq_array.getD f_ind 0 / fj))
      (cr_raman.take f_ind))
    (power_spectrum.take f_ind)).sum

/-- Source `_ode_raman`: entry `[f_ind, z_ind]` of the returned `dpdz` matrix,
`prop_direct[f_ind] * (-alphap_fiber[f_ind] + raman_gain - raman_loss) * power_sample`. -/
def ode_raman {α : Type} [Field α] (alphap_fiber freq_array : List α)
    (cr_raman_matrix : List (List α)) (prop_direct : List α)
    (power_spectrum : List (List α)) (f_ind z_ind : ℕ) : α :=
  prop_direct.getD f_ind 0 *
      (-(alphap_fiber.getD f_ind 0)
        + raman_gain (cr_raman_matrix.getD f_ind []) power_spectrum f_ind z_ind
        - raman_loss freq_array (cr_raman_matrix.getD f_ind []) power_spectrum f_ind z_ind)
    * (power_spectrum.getD f_ind []).getD z_ind 0

/-- Source `_residuals_raman`: `computed_boundary_value`, a zero vector of the
size of `ya` whose entry `index` is overwritten with `ya[index]` when
`prop_direct[index] == +1` and with `yb[index]` otherwise, for every index of
`prop_direct`. -/
def computed_boundary_value {α : Type} [Zero α] (ya yb : List α)
    (prop_direct : List ℤ) : List α :=
  (List.range ya.length).map (fun index =>
    if index < prop_direct.length then
      (if prop_direct.getD index 0 = 1 then ya.getD index 0 else yb.getD index 0)
    else 0)

/-- Source `_residuals_raman`: returns `power_spectrum - computed_boundary_value`. -/
def residuals_raman {α : Type} [SubtractionMonoid α] (ya yb power_spectrum : List α)
    (prop_direct : List ℤ) : List α :=
  List.zipWith (fun p c => p - c) power_spectrum (computed_boundary_value ya yb prop_direct)

/-- Source `raman_bvp_solution`, lines building `rho`:
`rho = (raman_bvp_solution.y.transpose() / power_spectrum).transpose()` (each row
divided by that slice's target power) followed by `rho = np.sqrt(rho)`. -/
noncomputable def rho_matrix (y : List (List ℝ)) (power_spectrum : List ℝ) :
    List (List ℝ) :=
  (List.zipWith (fun row p => row.map (fun v => v / p)) y power_spectrum).map
    (fun row => row.map Real.sqrt)

/-- Modelled from the external library scipy: `interp1d(xs, ys)` evaluated at a
point, as piecewise-linear interpolation on the sample list (pairs of abscissa
and ordinate); past the last sample the last ordinate is used.  Only its value
on constant ordinate lists matters for the theorems below. -/
def interp1d {α : Type} [LinearOrderedField α] : List (α × α) → α → α
  | [], _ => 0
  | (_, y0) :: [], _ => y0
  | (x0, y0) :: (x1, y1) :: rest, x =>
    if x ≤ x1 then y0 + (y1 - y0) * (x - x0) / (x1 - x0)
    else interp1d ((x1, y1) :: rest) x

/-- Source `raman_bvp_solution` / `raman_ase_solution`: construction of
`alphap_fiber` from the attenuation table — interpolated when the table has at
least 2 samples, otherwise the single coefficient times `np.ones`. -/
def alphap_fiber_setup {α : Type} [LinearOrderedField α]
    (alpha_frequency alpha_power : List α) (freq_array : List α) : List α :=
  if 2 ≤ alpha_power.length then
    freq_array.map (interp1d (alpha_frequency.zip alpha_power))
  else
    freq_array.map (fun _ => alpha_power.getD 0 0)

/-- Source: `freq_diff = abs(freq_array - np.reshape(freq_array, (len(freq_array), 1)))`,
entry `[i, j] = |freq_array[j] - freq_array[i]|`. -/
def freq_diff_matrix {α : Type} [LinearOrderedField α] (freq_array : List α) :
    List (List α) :=
  freq_array.map (fun fi => freq_array.map (fun fj => |fj - fi|))

/-- Source: construction of the pairwise coupling matrix `cr` — the Raman table
interpolated on `freq_diff` when it has at least 2 samples, otherwise the single
coefficient times `np.ones(freq_diff.shape)`. -/
def cr_setup {α : Type} [LinearOrderedField α]
    (cr_frequency cr_vals : List α) (freq_array : List α) : List (List α) :=
  if 2 ≤ cr_vals.length then
    (freq_diff_matrix freq_array).map (fun row => row.map (interp1d (cr_frequency.zip cr_vals)))
  else
    (freq_diff_matrix freq_array).map (fun row => row.map (fun _ => cr_vals.getD 0 0))

/-- Source `_ase_int`: `h = ph.value('Planck constant')` (CODATA). -/
def h_planck : ℝ := 6.62607015e-34

/-- Source `_ase_int`: `Kb = ph.value('Boltzmann constant')` (CODATA). -/
def kb : ℝ := 1.380649e-23

/-- Source `_ase_int`: `Bn = 32e9`, the fixed noise-equivalent bandwidth in Hz. -/
def Bn : ℝ := 32e9

/-- Source `_ase_int`: `T = 298`, the fixed reference temperature in K. -/
def T : ℝ := 298

/-- Modelled from the external library scipy: `cumtrapz(y, x, initial=0)` as a
function of the sample index — entry `0` is `0` and entry `k+1` adds the
trapezoid `(x[k+1] - x[k]) * (y[k] + y[k+1]) / 2`. -/
noncomputable def cumtrapz (y x : ℕ → ℝ) : ℕ → ℝ
  | 0 => 0
  | k + 1 => cumtrapz y x k + (x (k + 1) - x k) * (y k + y (k + 1)) / 2

/-- Source `_ase_int`: `eta = 1/(np.exp((h*freq_diff[f_ind, :])/(Kb*T)) - 1)`,
the Bose-Einstein occupation evaluated on one row of `freq_diff`. -/
noncomputable def eta_list (fdiff_row : List ℝ) : List ℝ :=
  fdiff_row.map (fun d => 1 / (Real.exp (h_planck * d / (kb * T)) - 1))

/-- Source `_ase_int`: `int_A = int_alpha + int_rgainv + int_rlossv` as a
function of the z sample index `k`, with
`int_pump = cumtrapz(raman_matrix, z_array, axis=1, initial=0)`,
`int_alpha = -alphap_fiber[f_ind] * z_array`,
`int_rgainv = np.sum(cr_raman[f_ind+1:] * int_pump[f_ind+1:, :].T, ...)` and
`int_rlossv = np.sum(cr_raman[:f_ind] * vibrational_loss * int_pump[:f_ind, :].T, ...)`. -/
noncomputable def int_A_fun (z : ℕ → ℝ) (raman_matrix : List (ℕ → ℝ))
    (alphap_fiber freq_array : List ℝ) (cr : List (List ℝ)) (f_ind : ℕ) : ℕ → ℝ :=
  let int_pump := raman_matrix.map (fun row => cumtrapz row z)
  let cr_raman := cr.getD f_ind []
  let vibrational_loss := (freq_array.take f_ind).map (fun fj => freq_array.getD f_ind 0 / fj)
  fun k =>
    -(alphap_fiber.getD f_ind 0) * z k
    + (List.zipWith (fun c g => c * g k) (cr_raman.drop (f_ind + 1)) (int_pump.drop (f_ind + 1))).sum
    + (List.zipWith (fun c g => c * g k)
        (List.zipWith (· * ·) (cr_raman.take f_ind) vibrational_loss)
        (int_pump.take f_ind)).sum

/-- Source `_ase_int`: the spontaneous source term
`B = np.sum((cr_raman[f_ind+1:]*(1+eta[f_ind+1:])*raman_matrix[f_ind+1:, :].T).T * h*f_ase*Bn, axis=0)`
as a function of the z sample index. -/
noncomputable def B_fun (raman_matrix : List (ℕ → ℝ)) (freq_array : List ℝ)
    (cr fdiff : List (List ℝ)) (f_ind : ℕ) : ℕ → ℝ :=
  let cr_raman := cr.getD f_ind []
  let eta := eta_list (fdiff.getD f_ind [])
  let f_ase := freq_array.getD f_ind 0
  fun k =>
    ((List.zipWith (fun c g => c * g k)
        (List.zipWith (fun c e => c * (1 + e)) (cr_raman.drop (f_ind + 1)) (eta.drop (f_ind + 1)))
        (raman_matrix.drop (f_ind + 1))).map (fun t => t * (h_planck * f_ase * Bn))).sum

/-- Source `_ase_int`: row `f_ind` of the returned `ase` matrix,
`F + C` with `F = pase0[f_ind] * np.exp(int_A)` and
`C = np.exp(int_A) * cumtrapz(B*np.exp(-int_A), z_array, initial=0)`. -/
noncomputable def ase_int (z : ℕ → ℝ) (raman_matrix : List (ℕ → ℝ))
    (alphap_fiber freq_array : List ℝ) (cr fdiff : List (List ℝ))
    (pase0 : List ℝ) (f_ind : ℕ) : ℕ → ℝ :=
  let intA := int_A_fun z raman_matrix alphap_fiber freq_array cr f_ind
  let B := B_fun raman_matrix freq_array cr fdiff f_ind
  fun k =>
    pase0.getD f_ind 0 * Real.exp (intA k)
    + Real.exp (intA k) * cumtrapz (fun j => B j * Real.exp (-(intA j))) z k

/-- Result object of the external BVP routine `scipy.integrate.solve_bvp`:
`success` is `False` (and `status` nonzero) when the solver did not converge. -/
structure BvpSol where
  success : Bool
  status : ℤ
  x : List ℝ
  y : List (List ℝ)

/-- Cached object built by the `raman_bvp_solution` getter: the solver result
with `frequency`, `z`, `power` and `rho` attached (the convergence flags stay
on the object, the getter never reads them). -/
structure RamanProfile where
  success : Bool
  status : ℤ
  z : List ℝ
  frequency : List ℝ
  power : List (List ℝ)
  rho : List (List ℝ)

/-- Source `raman_bvp_solution`, lines after `solve_bvp` returns: derive `rho`
and attach the output fields, with no inspection of `success`/`status`. -/
noncomputable def make_profile (sol : BvpSol) (freq_array power_spectrum : List ℝ) :
    RamanProfile :=
  { success := sol.success
    status := sol.status
    z := sol.x
    frequency := freq_array
    power := sol.y
    rho := rho_matrix sol.y power_spectrum }

/-- Source `raman_bvp_solution` getter, control flow: return the cache when
present; otherwise run the solve, build the profile, cache it and return it —
unconditionally, whatever the solver's convergence outcome.  The returned pair
is (new cache contents, returned value). -/
noncomputable def raman_bvp_solution_step (cache : Option RamanProfile)
    (sol : BvpSol) (freq_array power_spectrum : List ℝ) :
    Option RamanProfile × RamanProfile :=
  match cache with
  | some p => (some p, p)
  | none =>
    let p := make_profile sol freq_array power_spectrum
    (some p, p)

/-- Solver object state: the four input slots and the two cache slots of
`RamanSolver.__init__`. -/
structure SolverState (Fib Spec Pump Conf : Type) where
  fiber_information : Fib
  spectral_information : Spec
  raman_pump_information : Pump
  solver_params : Conf
  raman_bvp_solution : Option RamanProfile
  raman_ase_solution : Option (List (ℕ → ℝ))

/-- Source `fiber_information.setter`: assigns the slot and clears
`_raman_bvp_solution` only. -/
def set_fiber_information {Fib Spec Pump Conf : Type}
    (s : SolverState Fib Spec Pump Conf) (v : Fib) : SolverState Fib Spec Pump Conf :=
  { s with fiber_information := v, raman_bvp_solution := none }

/-- Source `spectral_information.setter`: assigns the slot and clears
`_raman_bvp_solution` only. -/
def set_spectral_information {Fib Spec Pump Conf : Type}
    (s : SolverState Fib Spec Pump Conf) (v : Spec) : SolverState Fib Spec Pump Conf :=
  { s with spectral_information := v, raman_bvp_solution := none }

/-- Source `raman_pump_information.setter`: assigns the slot and clears
nothing. -/
def set_raman_pump_information {Fib Spec Pump Conf : Type}
    (s : SolverState Fib Spec Pump Conf) (v : Pump) : SolverState Fib Spec Pump Conf :=
  { s with raman_pump_information := v }

/-- Source `solver_params.setter`: assigns the slot and clears
`_raman_bvp_solution` only. -/
def set_solver_params {Fib Spec Pump Conf : Type}
    (s : SolverState Fib Spec Pump Conf) (v : Conf) : SolverState Fib Spec Pump Conf :=
  { s with solver_params := v, raman_bvp_solution := none }

/-- Side effects performed by the `raman_ase_solution` getter body: the two
matplotlib figures, the `plt.show()` call and the `print(1)` debug line. -/
inductive AseEffect
  | surfacePlot (data : List (ℕ → ℝ))
  | linePlot (data : List (ℕ → ℝ))
  | showWindow
  | printDebug (n : ℕ)

/-- Source `raman_ase_solution` getter: with a cache present it is returned;
otherwise the ASE matrix is computed (`_ase_int` with `pase0 = np.zeros`),
converted to dBm, plotted and shown, `1` is printed, the cache assignment being
commented out in the source — so the cache stays `none` and the still-`None`
field is returned.  The result triple is (effects, new cache contents,
returned value). -/
noncomputable def raman_ase_solution_step (cache : Option (List (ℕ → ℝ)))
    (z : ℕ → ℝ) (raman_matrix : List (ℕ → ℝ)) (alphap_fiber freq_array : List ℝ)
    (cr fdiff : List (List ℝ)) :
    List AseEffect × Option (List (ℕ → ℝ)) × Option (List (ℕ → ℝ)) :=
  match cache with
  | some a => ([], some a, some a)
  | none =>
    let pase0 : List ℝ := freq_array.map (fun _ => 0)
    let power_aselin := (List.range freq_array.length).map
      (ase_int z raman_matrix alphap_fiber freq_array cr fdiff pase0)
    let power_ase := power_aselin.map (fun row => fun k => 10 * Real.logb 10 (row k) + 30)
    ([AseEffect.surfacePlot power_ase, AseEffect.linePlot power_ase,
      AseEffect.showWindow, AseEffect.printDebug 1], none, none)

/-! Generic lemmas relating the slicing-style list operations of the embedding
to indexed `Finset` sums. -/

/-- Entry `k` of `xs.drop n` (with default) is entry `n + k` of `xs`. -/
theorem getD_drop {α : Type} (d : α) : ∀ (n : ℕ) (xs : List α) (k : ℕ),
    (xs.drop n).getD k d = xs.getD (n + k) d
  | 0, _, _ => by simp
  | _ + 1, [], _ => by simp
  | n + 1, x :: xs, k => by
    rw [List.drop_succ_cons, getD_drop d n xs k, show n + 1 + k = (n + k) + 1 by omega,
      List.getD_cons_succ]

/-- Entry `k` of `xs.take n` is entry `k` of `xs` when `k < n`, else the default. -/
theorem getD_take {α : Type} (d : α) : ∀ (n : ℕ) (xs : List α) (k : ℕ),
    (xs.take n).getD k d = if k < n then xs.getD k d else d
  | 0, _, _ => by simp
  | n + 1, [], k => by simp
  | _ + 1, x :: xs, 0 => by simp
  | n + 1, x :: xs, k + 1 => by
    rw [List.take_succ_cons, List.getD_cons_succ, getD_take d n xs k, List.getD_cons_succ]
    simp [Nat.succ_lt_succ_iff]

/-- In-bounds entry of a mapped list. -/
theorem getD_map {α β : Type} (g : α → β) (d : β) (dx : α) :
    ∀ (xs : List α) (i : ℕ), i < xs.length → (xs.map g).getD i d = g (xs.getD i dx)
  | [], i, h => by simp at h
  | x :: xs, 0, _ => by simp
  | x :: xs, i + 1, h => by
    rw [List.map_cons, List.getD_cons_succ, List.getD_cons_succ]
    exact getD_map g d dx xs i (by simpa using h)

/-- In-bounds entry of a `zipWith`. -/
theorem getD_zipWith {α β γ : Type} (f : α → β → γ) (d : γ) (dx : α) (dy : β) :
    ∀ (xs : List α) (ys : List β) (i : ℕ), i < xs.length → i < ys.length →
      (List.zipWith f xs ys).getD i d = f (xs.getD i dx) (ys.getD i dy)
  | [], _, i, h, _ => by simp at h
  | _ :: _, [], i, _, h => by simp at h
  | x :: xs, y :: ys, 0, _, _ => by simp
  | x :: xs, y :: ys, i + 1, h1, h2 => by
    rw [List.zipWith_cons_cons, List.getD_cons_succ, List.getD_cons_succ, List.getD_cons_succ]
    exact getD_zipWith f d dx dy xs ys i (by simpa using h1) (by simpa using h2)

/-- The sum of an elementwise combination is the indexed sum over the common range. -/
theorem sum_zipWith_eq {α β γ : Type} [AddCommMonoid γ] (f : α → β → γ) (dx : α) (dy : β) :
    ∀ (xs : List α) (ys : List β),
      (List.zipWith f xs ys).sum
        = ∑ k in Finset.range (min xs.length ys.length), f (xs.getD k dx) (ys.getD k dy)
  | [], ys => by simp
  | x :: xs, [] => by simp
  | x :: xs, y :: ys => by
    rw [List.zipWith_cons_cons, List.sum_cons, sum_zipWith_eq f dx dy xs ys,
      List.length_cons, List.length_cons, Nat.succ_min_succ, Finset.sum_range_succ']
    simp [add_comm]

/-- In-bounds entry of `List.range`. -/
theorem getD_range : ∀ (n i : ℕ), i < n → (List.range n).getD i 0 = i
  | 0, i, h => absurd h (Nat.not_lt_zero i)
  | n + 1, 0, _ => by simp [List.range_succ_eq_map]
  | n + 1, i + 1, h => by
    rw [List.range_succ_eq_map, List.getD_cons_succ,
      getD_map Nat.succ 0 0 (List.range n) i (by simpa using Nat.lt_of_succ_lt_succ h),
      getD_range n i (Nat.lt_of_succ_lt_succ h)]

/-- In-bounds entry of a function tabulated over `List.range`. -/
theorem getD_range_map {α : Type} (g : ℕ → α) (d : α) (n i : ℕ) (h : i < n) :
    ((List.range n).map g).getD i d = g i := by
  rw [getD_map g d 0 (List.range n) i (by simpa using h), getD_range n i h]

/-- An in-bounds `getD` is a member of the list. -/
theorem getD_mem {α : Type} (d : α) : ∀ (xs : List α) (i : ℕ), i < xs.length → xs.getD i d ∈ xs
  | [], i, h => by simp at h
  | x :: xs, 0, _ => by simp
  | x :: xs, i + 1, h => by
    rw [List.getD_cons_succ]
    exact List.mem_cons_of_mem x (getD_mem d xs i (by simpa using h))

/-- Every entry of `List.replicate n x` read with default `x` is `x`. -/
theorem getD_replicate_self {α : Type} (x : α) : ∀ (n i : ℕ), (List.replicate n x).getD i x = x
  | 0, _ => by simp
  | n + 1, 0 => by simp [List.replicate_succ]
  | n + 1, i + 1 => by
    rw [List.replicate_succ, List.getD_cons_succ, getD_replicate_self x n i]

/-- Scaling every element before summing scales the sum. -/
theorem sum_map_mul_right : ∀ (l : List ℝ) (s : ℝ), (l.map (fun t => t * s)).sum = l.sum * s
  | [], s => by simp
  | x :: l, s => by
    rw [List.map_cons, List.sum_cons, List.sum_cons, sum_map_mul_right l s, add_mul]

/-- The `raman_gain` slice-product-sum of `_ode_raman` is the sum over strictly
higher slice indices. -/
theorem raman_gain_eq {α : Type} [Field α] (cr_raman : List α) (P : List (List α))
    (n f z : ℕ) (hcr : cr_raman.length = n) (hP : P.length = n) :
    raman_gain cr_raman P f z
      = ∑ j in Finset.Ico (f + 1) n, cr_raman.getD j 0 * (P.getD j []).getD z 0 := by
  unfold raman_gain
  rw [sum_zipWith_eq _ 0 ([] : List α), List.length_drop, List.length_drop, hcr, hP,
    Nat.min_self, Finset.sum_Ico_eq_sum_range]
  exact Finset.sum_congr rfl (fun k _ => by rw [getD_drop, getD_drop])

/-- The `raman_loss` slice-product-sum of `_ode_raman` is the sum over strictly
lower slice indices weighted by the frequency ratio. -/
theorem raman_loss_eq {α : Type} [Field α] (freq_array cr_raman : List α)
    (P : List (List α)) (n f z : ℕ)
    (hfreq : freq_array.length = n) (hcr : cr_raman.length = n) (hP : P.length = n)
    (hf : f ≤ n) :
    raman_loss freq_array cr_raman P f z
      = ∑ j in Finset.range f,
          freq_array.getD f 0 / freq_array.getD j 0
            * (cr_raman.getD j 0 * (P.getD j []).getD z 0) := by
  unfold raman_loss
  rw [sum_zipWith_eq _ 0 ([] : List α)]
  have h1 : (List.zipWith (· * ·)
      ((freq_array.take f).map (fun fj => freq_array.getD f 0 / fj))
      (cr_raman.take f)).length = f := by
    simp [hfreq, hcr]; omega
  have h2 : (P.take f).length = f := by simp [hP]; omega
  rw [h1, h2, Nat.min_self]
  refine Finset.sum_congr rfl (fun k hk => ?_)
  have hk' : k < f := Finset.mem_range.mp hk
  rw [getD_zipWith (· * ·) 0 0 0 _ _ k (by simp [hfreq]; omega) (by simp [hcr]; omega)]
  rw [getD_map _ 0 0 (freq_array.take f) k (by simp [hfreq]; omega)]
  rw [getD_take, getD_take, getD_take]
  simp only [hk', if_true]
  ring

/-- C1: for every frequency slice `i` and z sample, the ODE right-hand side of
`_ode_raman` equals `dir_i * (-alpha_i + Σ_{j>i} cr[i,j] P_j(z)
- Σ_{j<i} (f_i/f_j) cr[i,j] P_j(z)) * P_i(z)`: gain only from higher-index
slices weighted 1:1, loss only into lower-index slices weighted by the
frequency ratio. -/
theorem claim_C1 {α : Type} [Field α] (alphap_fiber freq_array prop_direct : List α)
    (cr_raman_matrix power_spectrum : List (List α)) (n i z : ℕ)
    (hfreq : freq_array.length = n) (hcr : (cr_raman_matrix.getD i []).length = n)
    (hP : power_spectrum.length = n) (hi : i < n) :
    ode_raman alphap_fiber freq_array cr_raman_matrix prop_direct power_spectrum i z
      = prop_direct.getD i 0 *
          (-(alphap_fiber.getD i 0)
            + ∑ j in Finset.Ico (i + 1) n,
                (cr_raman_matrix.getD i []).getD j 0 * (power_spectrum.getD j []).getD z 0
            - ∑ j in Finset.range i,
                freq_array.getD i 0 / freq_array.getD j 0
                  * ((cr_raman_matrix.getD i []).getD j 0
                      * (power_spectrum.getD j []).getD z 0))
        * (power_spectrum.getD i []).getD z 0 := by
  unfold ode_raman
  rw [raman_gain_eq _ _ n i z hcr hP, raman_loss_eq _ _ _ n i z hfreq hcr hP (le_of_lt hi)]

/-- Witness for C1 at a concrete two-slice, two-sample input over `ℚ`. -/
theorem claim_C1_witness :
    ([(2:ℚ), 3] : List ℚ).length = 2
      ∧ (([[(5:ℚ), 6], [7, 8]] : List (List ℚ)).getD 1 []).length = 2
      ∧ ([[(1:ℚ), 10], [2, 20]] : List (List ℚ)).length = 2
      ∧ 1 < 2
      ∧ ode_raman [(1:ℚ), 2] [2, 3] [[5, 6], [7, 8]] [4, 5] [[1, 10], [2, 20]] 1 1
        = ([(4:ℚ), 5] : List ℚ).getD 1 0 *
            (-(([(1:ℚ), 2] : List ℚ).getD 1 0)
              + ∑ j in Finset.Ico 2 2,
                  (([[(5:ℚ), 6], [7, 8]] : List (List ℚ)).getD 1 []).getD j 0
                    * (([[(1:ℚ), 10], [2, 20]] : List (List ℚ)).getD j []).getD 1 0
              - ∑ j in Finset.range 1,
                  ([(2:ℚ), 3] : List ℚ).getD 1 0 / ([(2:ℚ), 3] : List ℚ).getD j 0
                    * ((([[(5:ℚ), 6], [7, 8]] : List (List ℚ)).getD 1 []).getD j 0
                        * (([[(1:ℚ), 10], [2, 20]] : List (List ℚ)).getD j []).getD 1 0))
          * (([[(1:ℚ), 10], [2, 20]] : List (List ℚ)).getD 1 []).getD 1 0 :=
  ⟨rfl, rfl, rfl, by decide,
    claim_C1 [(1:ℚ), 2] [2, 3] [4, 5] [[5, 6], [7, 8]] [[1, 10], [2, 20]] 2 1 1
      rfl rfl rfl (by decide)⟩

/-- Entrywise value of `_residuals_raman` (shared by the boundary-residual and
launch-normalization theorems). -/
theorem residuals_raman_getD {α : Type} [SubtractionMonoid α]
    (ya yb ps : List α) (dir : List ℤ) (n i : ℕ)
    (hya : ya.length = n) (hdir : dir.length = n) (hps : ps.length = n) (hi : i < n) :
    (residuals_raman ya yb ps dir).getD i 0
      = ps.getD i 0 - (if dir.getD i 0 = 1 then ya.getD i 0 else yb.getD i 0) := by
  unfold residuals_raman
  have hlen : i < (computed_boundary_value ya yb dir).length := by
    simp [computed_boundary_value, hya]; omega
  rw [getD_zipWith (fun p c => p - c) 0 0 0 ps _ i (by omega) hlen]
  unfold computed_boundary_value
  rw [getD_range_map _ 0 ya.length i (by omega), if_pos (show i < dir.length by omega)]

/-- C2: the boundary residual vector of `_residuals_raman` has at position `i`
the target power minus the candidate value at `z = 0` when the slice's declared
direction is `+1`, and minus the candidate value at `z = length` otherwise, so
one residual vector handles a mixed forward/backward system. -/
theorem claim_C2 {α : Type} [SubtractionMonoid α]
    (ya yb power_spectrum : List α) (prop_direct : List ℤ) (n i : ℕ)
    (hya : ya.length = n) (hdir : prop_direct.length = n)
    (hps : power_spectrum.length = n) (hi : i < n) :
    (residuals_raman ya yb power_spectrum prop_direct).getD i 0
      = power_spectrum.getD i 0
        - (if prop_direct.getD i 0 = 1 then ya.getD i 0 else yb.getD i 0) :=
  residuals_raman_getD ya yb power_spectrum prop_direct n i hya hdir hps hi

/-- Witness for C2 at a concrete mixed forward/backward input over `ℚ`. -/
theorem claim_C2_witness :
    ([(1:ℚ), 2] : List ℚ).length = 2 ∧ ([(1:ℤ), -1] : List ℤ).length = 2
      ∧ ([(7:ℚ), 9] : List ℚ).length = 2 ∧ 1 < 2
      ∧ (residuals_raman [(1:ℚ), 2] [3, 4] [7, 9] [1, -1]).getD 1 0
        = ([(7:ℚ), 9] : List ℚ).getD 1 0
          - (if ([(1:ℤ), -1] : List ℤ).getD 1 0 = 1
              then ([(1:ℚ), 2] : List ℚ).getD 1 0 else ([(3:ℚ), 4] : List ℚ).getD 1 0) :=
  ⟨rfl, rfl, rfl, by decide,
    claim_C2 [(1:ℚ), 2] [3, 4] [7, 9] [1, -1] 2 1 rfl rfl rfl (by decide)⟩

/-- C3: for a converged solve (zero boundary residuals) with positive target
powers, `rho` is `sqrt(P(z,f)/target_f)` elementwise, and each slice's `rho`
row is exactly `1` at its own launch boundary: index `0` for forward slices,
the last z index for backward slices. -/
theorem claim_C3 (y : List (List ℝ)) (power_spectrum : List ℝ) (prop_direct : List ℤ)
    (n m i : ℕ) (hy : y.length = n) (hps : power_spectrum.length = n)
    (hdir : prop_direct.length = n) (hrow : ∀ r ∈ y, r.length = m) (hm : 0 < m)
    (hi : i < n) (hpos : 0 < power_spectrum.getD i 0)
    (hconv : residuals_raman (column y 0) (column y (m - 1)) power_spectrum prop_direct
      = List.replicate n 0) :
    (∀ z, z < m →
        ((rho_matrix y power_spectrum).getD i []).getD z 0
          = Real.sqrt ((y.getD i []).getD z 0 / power_spectrum.getD i 0))
      ∧ (prop_direct.getD i 0 = 1 →
          ((rho_matrix y power_spectrum).getD i []).getD 0 0 = 1)
      ∧ (prop_direct.getD i 0 ≠ 1 →
          ((rho_matrix y power_spectrum).getD i []).getD (m - 1) 0 = 1) := by
  have hylen : (y.getD i []).length = m := hrow _ (getD_mem [] y i (by omega))
  have helem : ∀ z, z < m →
      ((rho_matrix y power_spectrum).getD i []).getD z 0
        = Real.sqrt ((y.getD i []).getD z 0 / power_spectrum.getD i 0) := by
    intro z hz
    unfold rho_matrix
    have hzlen : i < (List.zipWith (fun row p => row.map (fun v => v / p))
        y power_spectrum).length := by
      simp [hy, hps]; omega
    rw [getD_map _ [] [] _ i hzlen,
      getD_zipWith (fun row p => row.map (fun v => v / p)) [] [] 0 y power_spectrum i
        (by omega) (by omega)]
    rw [getD_map Real.sqrt 0 0 _ z (by rw [List.length_map, hylen]; omega),
      getD_map _ 0 0 (y.getD i []) z (by rw [hylen]; omega)]
  have hres : (residuals_raman (column y 0) (column y (m - 1))
      power_spectrum prop_direct).getD i 0 = 0 := by
    rw [hconv, getD_replicate_self]
  rw [residuals_raman_getD (column y 0) (column y (m - 1)) power_spectrum prop_direct n i
    (by simp [column, hy]) hdir hps hi] at hres
  have hcol : ∀ z, (column y z).getD i 0 = (y.getD i []).getD z 0 := by
    intro z
    unfold column
    rw [getD_map _ 0 [] y i (by omega)]
  refine ⟨helem, ?_, ?_⟩
  · intro hfwd
    rw [if_pos hfwd, hcol 0, sub_eq_zero] at hres
    rw [helem 0 hm, ← hres, div_self (ne_of_gt hpos), Real.sqrt_one]
  · intro hbwd
    rw [if_neg hbwd, hcol (m - 1), sub_eq_zero] at hres
    rw [helem (m - 1) (by omega), ← hres, div_self (ne_of_gt hpos), Real.sqrt_one]

/-- Witness for C3 at a concrete converged two-slice input (one forward slice
normalized at `z = 0`, one backward slice normalized at `z = length`). -/
theorem claim_C3_witness :
    ([[(4:ℝ), 2], [3, 9]] : List (List ℝ)).length = 2
      ∧ ([(4:ℝ), 9] : List ℝ).length = 2 ∧ ([(1:ℤ), -1] : List ℤ).length = 2
      ∧ (∀ r ∈ ([[(4:ℝ), 2], [3, 9]] : List (List ℝ)), r.length = 2) ∧ (0:ℕ) < 2
      ∧ 0 < 2 ∧ (0:ℝ) < ([(4:ℝ), 9] : List ℝ).getD 0 0
      ∧ residuals_raman (column ([[(4:ℝ), 2], [3, 9]] : List (List ℝ)) 0)
          (column ([[(4:ℝ), 2], [3, 9]] : List (List ℝ)) 1) [4, 9] [1, -1]
          = List.replicate 2 0
      ∧ ((∀ z, z < 2 →
            ((rho_matrix [[(4:ℝ), 2], [3, 9]] [4, 9]).getD 0 []).getD z 0
              = Real.sqrt ((([[(4:ℝ), 2], [3, 9]] : List (List ℝ)).getD 0 []).getD z 0
                  / ([(4:ℝ), 9] : List ℝ).getD 0 0))
          ∧ (([(1:ℤ), -1] : List ℤ).getD 0 0 = 1 →
              ((rho_matrix [[(4:ℝ), 2], [3, 9]] [4, 9]).getD 0 []).getD 0 0 = 1)
          ∧ (([(1:ℤ), -1] : List ℤ).getD 0 0 ≠ 1 →
              ((rho_matrix [[(4:ℝ), 2], [3, 9]] [4, 9]).getD 0 []).getD 1 0 = 1)) :=
  ⟨rfl, rfl, rfl, by decide, by decide, by decide, by norm_num,
    by norm_num [residuals_raman, computed_boundary_value, column, List.range_succ, List.replicate],
    claim_C3 [[(4:ℝ), 2], [3, 9]] [4, 9] [1, -1] 2 2 0 rfl rfl rfl (by decide)
      (by decide) (by decide) (by norm_num)
      (by norm_num [residuals_raman, computed_boundary_value, column, List.range_succ, List.replicate])⟩

/-- C4 (code bug evidence): the `raman_bvp_solution` getter performs no
convergence check — for a solver outcome with `success = false` it still builds
the profile, caches it and returns it; its return type has no failure case, so
the non-converged result is indistinguishable from a successful one. -/
theorem claim_C4 (sol : BvpSol) (freq_array power_spectrum : List ℝ)
    (h : sol.success = false) :
    (raman_bvp_solution_step none sol freq_array power_spectrum).1
        = some (make_profile sol freq_array power_spectrum)
      ∧ (raman_bvp_solution_step none sol freq_array power_spectrum).2
        = make_profile sol freq_array power_spectrum
      ∧ (make_profile sol freq_array power_spectrum).success = false :=
  ⟨rfl, rfl, h⟩

/-- Witness for C4 at a concrete non-converged solver outcome. -/
theorem claim_C4_witness :
    (BvpSol.mk false 1 [0] [[1]]).success = false
      ∧ ((raman_bvp_solution_step none (BvpSol.mk false 1 [0] [[1]]) [5] [1]).1
          = some (make_profile (BvpSol.mk false 1 [0] [[1]]) [5] [1])
        ∧ (raman_bvp_solution_step none (BvpSol.mk false 1 [0] [[1]]) [5] [1]).2
          = make_profile (BvpSol.mk false 1 [0] [[1]]) [5] [1]
        ∧ (make_profile (BvpSol.mk false 1 [0] [[1]]) [5] [1]).success = false) :=
  ⟨rfl, claim_C4 (BvpSol.mk false 1 [0] [[1]]) [5] [1] rfl⟩

/-- C5 (code bug evidence): the `raman_pump_information` setter clears neither
cache (a previously cached BVP solution survives a pump change), and none of
the four setters clears the cached ASE solution. -/
theorem claim_C5 {Fib Spec Pump Conf : Type} (s : SolverState Fib Spec Pump Conf)
    (vf : Fib) (vs : Spec) (vp : Pump) (vc : Conf) :
    (set_raman_pump_information s vp).raman_bvp_solution = s.raman_bvp_solution
      ∧ (set_raman_pump_information s vp).raman_ase_solution = s.raman_ase_solution
      ∧ (set_fiber_information s vf).raman_ase_solution = s.raman_ase_solution
      ∧ (set_spectral_information s vs).raman_ase_solution = s.raman_ase_solution
      ∧ (set_solver_params s vc).raman_ase_solution = s.raman_ase_solution :=
  ⟨rfl, rfl, rfl, rfl, rfl⟩

/-- C6 (code bug evidence): with an empty cache and any valid inputs, the
`raman_ase_solution` getter performs the plotting and printing side effects,
leaves the cache empty (the assignment is commented out in the source) and
returns `none` instead of the computed ASE profile. -/
theorem claim_C6 (z : ℕ → ℝ) (raman_matrix : List (ℕ → ℝ))
    (alphap_fiber freq_array : List ℝ) (cr fdiff : List (List ℝ)) :
    (raman_ase_solution_step none z raman_matrix alphap_fiber freq_array cr fdiff).2.2 = none
      ∧ (raman_ase_solution_step none z raman_matrix alphap_fiber freq_array cr fdiff).2.1 = none
      ∧ AseEffect.showWindow
        ∈ (raman_ase_solution_step none z raman_matrix alphap_fiber freq_array cr fdiff).1 :=
  ⟨rfl, rfl, List.Mem.tail _ (List.Mem.tail _ (List.Mem.head _))⟩

/-- The sliced source-term computation of `_ase_int` equals the indexed sum
over strictly higher slice indices, with the Bose-Einstein factor inlined. -/
theorem B_fun_eq (raman_matrix : List (ℕ → ℝ)) (freq_array : List ℝ)
    (cr fdiff : List (List ℝ)) (n f : ℕ)
    (hP : raman_matrix.length = n) (hcr : (cr.getD f []).length = n)
    (hfd : (fdiff.getD f []).length = n) :
    B_fun raman_matrix freq_array cr fdiff f = fun k =>
      ∑ j in Finset.Ico (f + 1) n,
        (cr.getD f []).getD j 0
          * (1 + 1 / (Real.exp (h_planck * (fdiff.getD f []).getD j 0 / (kb * T)) - 1))
          * raman_matrix.getD j (fun _ => 0) k
          * (h_planck * freq_array.getD f 0 * Bn) := by
  funext k
  show ((List.zipWith (fun c g => c * g k)
      (List.zipWith (fun c e => c * (1 + e)) ((cr.getD f []).drop (f + 1))
        ((eta_list (fdiff.getD f [])).drop (f + 1)))
      (raman_matrix.drop (f + 1))).map
        (fun t => t * (h_planck * freq_array.getD f 0 * Bn))).sum = _
  rw [sum_map_mul_right, sum_zipWith_eq (fun c g => c * g k) 0 (fun _ => (0:ℝ))]
  have hlen : min (List.zipWith (fun c e => c * (1 + e)) ((cr.getD f []).drop (f + 1))
      ((eta_list (fdiff.getD f [])).drop (f + 1))).length
      (raman_matrix.drop (f + 1)).length = n - (f + 1) := by
    simp only [eta_list, List.length_zipWith, List.length_drop, List.length_map, hcr, hfd, hP]
    omega
  rw [hlen, Finset.sum_Ico_eq_sum_range, Finset.sum_mul]
  refine Finset.sum_congr rfl (fun k' hk' => ?_)
  have hk2 : k' < n - (f + 1) := Finset.mem_range.mp hk'
  rw [getD_zipWith (fun c e => c * (1 + e)) 0 0 0 _ _ k'
      (by simp only [List.length_drop, hcr]; omega)
      (by simp only [eta_list, List.length_map, List.length_drop, hfd]; omega),
    getD_drop, getD_drop, getD_drop]
  rw [show (eta_list (fdiff.getD f [])).getD (f + 1 + k') 0
      = 1 / (Real.exp (h_planck * (fdiff.getD f []).getD (f + 1 + k') 0 / (kb * T)) - 1) from by
    unfold eta_list
    rw [getD_map _ 0 0 _ (f + 1 + k') (by omega)]]

/-- The integrating-factor exponent computation of `_ase_int` equals the
attenuation term plus indexed gain and loss sums of cumulative trapezoidal
integrals of the solved power rows. -/
theorem int_A_fun_eq (z : ℕ → ℝ) (raman_matrix : List (ℕ → ℝ))
    (alphap_fiber freq_array : List ℝ) (cr : List (List ℝ)) (n f : ℕ)
    (hP : raman_matrix.length = n) (hcr : (cr.getD f []).length = n)
    (hfreq : freq_array.length = n) (hf : f < n) :
    int_A_fun z raman_matrix alphap_fiber freq_array cr f = fun k =>
      -(alphap_fiber.getD f 0) * z k
      + ∑ j in Finset.Ico (f + 1) n,
          (cr.getD f []).getD j 0 * cumtrapz (raman_matrix.getD j (fun _ => 0)) z k
      + ∑ j in Finset.range f,
          (cr.getD f []).getD j 0 * (freq_array.getD f 0 / freq_array.getD j 0)
            * cumtrapz (raman_matrix.getD j (fun _ => 0)) z k := by
  funext k
  show -(alphap_fiber.getD f 0) * z k
      + (List.zipWith (fun c g => c * g k) ((cr.getD f []).drop (f + 1))
          ((raman_matrix.map (fun row => cumtrapz row z)).drop (f + 1))).sum
      + (List.zipWith (fun c g => c * g k)
          (List.zipWith (· * ·) ((cr.getD f []).take f)
            ((freq_array.take f).map (fun fj => freq_array.getD f 0 / fj)))
          ((raman_matrix.map (fun row => cumtrapz row z)).take f)).sum = _
  congr 1
  · congr 1
    rw [sum_zipWith_eq (fun c g => c * g k) 0 (fun _ => (0:ℝ))]
    have hlen : min ((cr.getD f []).drop (f + 1)).length
        ((raman_matrix.map (fun row => cumtrapz row z)).drop (f + 1)).length
        = n - (f + 1) := by
      simp only [List.length_drop, List.length_map, hcr, hP]
      omega
    rw [hlen, Finset.sum_Ico_eq_sum_range]
    refine Finset.sum_congr rfl (fun k' hk' => ?_)
    have hk2 : k' < n - (f + 1) := Finset.mem_range.mp hk'
    rw [getD_drop, getD_drop,
      getD_map (fun row => cumtrapz row z) (fun _ => (0:ℝ)) (fun _ => (0:ℝ))
        raman_matrix (f + 1 + k') (by omega)]
  · rw [sum_zipWith_eq (fun c g => c * g k) 0 (fun _ => (0:ℝ))]
    have hlen : min (List.zipWith (· * ·) ((cr.getD f []).take f)
        ((freq_array.take f).map (fun fj => freq_array.getD f 0 / fj))).length
        ((raman_matrix.map (fun row => cumtrapz row z)).take f).length = f := by
      simp only [List.length_zipWith, List.length_take, List.length_map, hcr, hfreq, hP]
      omega
    rw [hlen]
    refine Finset.sum_congr rfl (fun k' hk' => ?_)
    have hk2 : k' < f := Finset.mem_range.mp hk'
    rw [getD_zipWith (· * ·) 0 0 0 _ _ k'
      (by simp only [List.length_take, hcr]; omega)
      (by simp only [List.length_map, List.length_take, hfreq]; omega)]
    rw [getD_map (fun fj => freq_array.getD f 0 / fj) 0 0 (freq_array.take f) k'
      (by simp only [List.length_take, hfreq]; omega)]
    rw [getD_take, getD_take, getD_take]
    simp only [hk2, if_true]
    rw [getD_map (fun row => cumtrapz row z) (fun _ => (0:ℝ)) (fun _ => (0:ℝ))
      raman_matrix k' (by omega)]

/-- C7: with zero initial condition (`pase0 = 0`, as passed by the getter), the
ASE row of `_ase_int` is `exp(A) ·` (trapezoidal cumulative integral of
`B · exp(-A)`), with `B(f,z) = h·f·Bn · Σ_{j>f} cr[f,j]·(1+η_j(f))·P_j(z)`,
`η_j(f) = 1/(exp(h·Δf/(k_B·T)) - 1)`, `T = 298`, `Bn = 32e9`, summing only over
strictly higher slice indices; and `A` is the attenuation plus
trapezoidally-integrated gain/loss sums. -/
theorem claim_C7 (z : ℕ → ℝ) (raman_matrix : List (ℕ → ℝ))
    (alphap_fiber freq_array : List ℝ) (cr fdiff : List (List ℝ)) (pase0 : List ℝ)
    (n f k : ℕ)
    (hP : raman_matrix.length = n) (hcr : (cr.getD f []).length = n)
    (hfd : (fdiff.getD f []).length = n) (hfreq : freq_array.length = n) (hf : f < n)
    (hpase : pase0.getD f 0 = 0) :
    ase_int z raman_matrix alphap_fiber freq_array cr fdiff pase0 f k
      = Real.exp (int_A_fun z raman_matrix alphap_fiber freq_array cr f k)
        * cumtrapz (fun j =>
            (h_planck * freq_array.getD f 0 * Bn
              * ∑ jj in Finset.Ico (f + 1) n,
                  (cr.getD f []).getD jj 0
                    * (1 + 1 / (Real.exp
                        (h_planck * (fdiff.getD f []).getD jj 0 / (kb * T)) - 1))
                    * raman_matrix.getD jj (fun _ => 0) j)
              * Real.exp (-(int_A_fun z raman_matrix alphap_fiber freq_array cr f j))) z k
      ∧ int_A_fun z raman_matrix alphap_fiber freq_array cr f k
        = -(alphap_fiber.getD f 0) * z k
          + ∑ j in Finset.Ico (f + 1) n,
              (cr.getD f []).getD j 0 * cumtrapz (raman_matrix.getD j (fun _ => 0)) z k
          + ∑ j in Finset.range f,
              (cr.getD f []).getD j 0 * (freq_array.getD f 0 / freq_array.getD j 0)
                * cumtrapz (raman_matrix.getD j (fun _ => 0)) z k := by
  have hB : B_fun raman_matrix freq_array cr fdiff f = fun j =>
      h_planck * freq_array.getD f 0 * Bn
        * ∑ jj in Finset.Ico (f + 1) n,
            (cr.getD f []).getD jj 0
              * (1 + 1 / (Real.exp (h_planck * (fdiff.getD f []).getD jj 0 / (kb * T)) - 1))
              * raman_matrix.getD jj (fun _ => 0) j := by
    rw [B_fun_eq raman_matrix freq_array cr fdiff n f hP hcr hfd]
    funext j
    rw [← Finset.sum_mul, mul_comm]
  constructor
  · show pase0.getD f 0 * Real.exp (int_A_fun z raman_matrix alphap_fiber freq_array cr f k)
        + Real.exp (int_A_fun z raman_matrix alphap_fiber freq_array cr f k)
          * cumtrapz (fun j => B_fun raman_matrix freq_array cr fdiff f j
              * Real.exp (-(int_A_fun z raman_matrix alphap_fiber freq_array cr f j))) z k
      = _
    rw [hpase, zero_mul, zero_add, hB]
  · exact congrFun (int_A_fun_eq z raman_matrix alphap_fiber freq_array cr n f
      hP hcr hfreq hf) k

/-- C8: for every frequency index and every input power profile, the ASE power
computed by `_ase_int` with the getter's zero initial vector is exactly `0` at
the first z grid point (propagation direction is not even an input of
`_ase_int`). -/
theorem claim_C8 (z : ℕ → ℝ) (raman_matrix : List (ℕ → ℝ))
    (alphap_fiber freq_array : List ℝ) (cr fdiff : List (List ℝ)) (pase0 : List ℝ)
    (f : ℕ) (hpase : pase0.getD f 0 = 0) :
    ase_int z raman_matrix alphap_fiber freq_array cr fdiff pase0 f 0 = 0 := by
  show pase0.getD f 0 * Real.exp (int_A_fun z raman_matrix alphap_fiber freq_array cr f 0)
      + Real.exp (int_A_fun z raman_matrix alphap_fiber freq_array cr f 0)
        * cumtrapz (fun j => B_fun raman_matrix freq_array cr fdiff f j
            * Real.exp (-(int_A_fun z raman_matrix alphap_fiber freq_array cr f j))) z 0
    = 0
  rw [hpase, zero_mul, zero_add]
  show _ * (0:ℝ) = 0
  rw [mul_zero]

/-- C10: in `_ase_int` the Bose-Einstein array is evaluated at the slice's own
zero frequency offset, where the denominator `exp(0) - 1` is `0` (a division by
zero); but the source sum `B` ranges only over strictly higher indices, whose
denominators are strictly positive whenever the slice frequencies are pairwise
distinct — the divergent self-term is never used. -/
theorem claim_C10 (freq_array : List ℝ) (n f : ℕ)
    (hfreq : freq_array.length = n) (hf : f < n)
    (hdist : ∀ i j, i < n → j < n → i ≠ j →
      freq_array.getD i 0 ≠ freq_array.getD j 0) :
    (Real.exp (h_planck * ((freq_diff_matrix freq_array).getD f []).getD f 0
        / (kb * T)) - 1 = 0)
      ∧ (∀ j ∈ Finset.Ico (f + 1) n,
          0 < Real.exp (h_planck * ((freq_diff_matrix freq_array).getD f []).getD j 0
            / (kb * T)) - 1)
      ∧ (∀ (raman_matrix : List (ℕ → ℝ)) (cr : List (List ℝ)) (k : ℕ),
          raman_matrix.length = n → (cr.getD f []).length = n →
          B_fun raman_matrix freq_array cr (freq_diff_matrix freq_array) f k
            = ∑ j in Finset.Ico (f + 1) n,
                (cr.getD f []).getD j 0
                  * (1 + 1 / (Real.exp (h_planck
                      * ((freq_diff_matrix freq_array).getD f []).getD j 0 / (kb * T)) - 1))
                  * raman_matrix.getD j (fun _ => 0) k
                  * (h_planck * freq_array.getD f 0 * Bn)) := by
  have hrow : ∀ j, j < n → ((freq_diff_matrix freq_array).getD f []).getD j 0
      = |freq_array.getD j 0 - freq_array.getD f 0| := by
    intro j hj
    unfold freq_diff_matrix
    rw [getD_map _ [] 0 freq_array f (by omega),
      getD_map _ 0 0 freq_array j (by omega)]
  have hh : (0:ℝ) < h_planck := by norm_num [h_planck]
  have hkt : (0:ℝ) < kb * T := by norm_num [kb, T]
  refine ⟨?_, ?_, ?_⟩
  · rw [hrow f hf, sub_self, abs_zero, mul_zero, zero_div, Real.exp_zero, sub_self]
  · intro j hj
    obtain ⟨hj1, hj2⟩ := Finset.mem_Ico.mp hj
    have hd : (0:ℝ) < |freq_array.getD j 0 - freq_array.getD f 0| :=
      abs_pos.mpr (sub_ne_zero.mpr (hdist j f hj2 hf (by omega)))
    have harg : (0:ℝ) < h_planck * ((freq_diff_matrix freq_array).getD f []).getD j 0
        / (kb * T) := by
      rw [hrow j hj2]
      exact div_pos (mul_pos hh hd) hkt
    have := Real.exp_lt_exp.mpr harg
    rw [Real.exp_zero] at this
    linarith
  · intro raman_matrix cr k hPl hcrl
    have hfd : ((freq_diff_matrix freq_array).getD f []).length = n := by
      unfold freq_diff_matrix
      rw [getD_map _ [] 0 freq_array f (by omega), List.length_map, hfreq]
    exact congrFun (B_fun_eq raman_matrix freq_array cr (freq_diff_matrix freq_array)
      n f hPl hcrl hfd) k

/-- On a nonempty sample list whose ordinates are all `c`, piecewise-linear
interpolation returns `c` everywhere. -/
theorem interp1d_const {α : Type} [LinearOrderedField α] (c : α) :
    ∀ (pts : List (α × α)), pts ≠ [] → (∀ p ∈ pts, p.2 = c) → ∀ x, interp1d pts x = c
  | [], h, _, _ => absurd rfl h
  | [(x0, y0)], _, hc, x => by
    have h0 : y0 = c := hc (x0, y0) (by simp)
    simp [interp1d, h0]
  | (x0, y0) :: (x1, y1) :: rest, _, hc, x => by
    have h0 : y0 = c := hc (x0, y0) (by simp)
    have h1 : y1 = c := hc (x1, y1) (by simp)
    rw [interp1d]
    split
    · rw [h0, h1, sub_self, zero_mul, zero_div, add_zero]
    · exact interp1d_const c ((x1, y1) :: rest) (by simp)
        (fun p hp => hc p (List.mem_cons_of_mem _ hp)) x

/-- C9: a single-sample attenuation or Raman table yields the same coefficient
arrays as any multi-sample table constant at that scalar — both are the uniform
broadcast of the scalar over every slice frequency and every pairwise frequency
difference. -/
theorem claim_C9 {α : Type} [LinearOrderedField α]
    (c : α) (tf1 tf2 vals2 freq_array : List α)
    (h2 : 2 ≤ vals2.length) (htf2 : 2 ≤ tf2.length)
    (hconst : ∀ y ∈ vals2, y = c) :
    alphap_fiber_setup tf1 [c] freq_array = freq_array.map (fun _ => c)
      ∧ alphap_fiber_setup tf2 vals2 freq_array = freq_array.map (fun _ => c)
      ∧ cr_setup tf1 [c] freq_array
        = (freq_diff_matrix freq_array).map (fun row => row.map (fun _ => c))
      ∧ cr_setup tf2 vals2 freq_array
        = (freq_diff_matrix freq_array).map (fun row => row.map (fun _ => c))
      ∧ alphap_fiber_setup tf1 [c] freq_array = alphap_fiber_setup tf2 vals2 freq_array
      ∧ cr_setup tf1 [c] freq_array = cr_setup tf2 vals2 freq_array := by
  have hzip_ne : tf2.zip vals2 ≠ [] := by
    intro hE
    have hl := congrArg List.length hE
    rw [List.length_zip, List.length_nil] at hl
    omega
  have hzip_const : ∀ p ∈ tf2.zip vals2, p.2 = c := by
    rintro ⟨a, b⟩ hp
    exact hconst b (List.of_mem_zip hp).2
  have hfn : interp1d (tf2.zip vals2) = fun _ : α => c :=
    funext (interp1d_const c (tf2.zip vals2) hzip_ne hzip_const)
  have ha1 : alphap_fiber_setup tf1 [c] freq_array = freq_array.map (fun _ => c) := by
    unfold alphap_fiber_setup
    rw [if_neg (by simp)]
    rfl
  have ha2 : alphap_fiber_setup tf2 vals2 freq_array = freq_array.map (fun _ => c) := by
    unfold alphap_fiber_setup
    rw [if_pos h2, hfn]
  have hc1 : cr_setup tf1 [c] freq_array
      = (freq_diff_matrix freq_array).map (fun row => row.map (fun _ => c)) := by
    unfold cr_setup
    rw [if_neg (by simp)]
    rfl
  have hc2 : cr_setup tf2 vals2 freq_array
      = (freq_diff_matrix freq_array).map (fun row => row.map (fun _ => c)) := by
    unfold cr_setup
    rw [if_pos h2, hfn]
  exact ⟨ha1, ha2, hc1, hc2, by rw [ha1, ha2], by rw [hc1, hc2]⟩

/-- Witness for C9 at a concrete single-sample vs constant two-sample table
over `ℚ`. -/
theorem claim_C9_witness :
    2 ≤ ([(5:ℚ), 5] : List ℚ).length ∧ 2 ≤ ([(0:ℚ), 10] : List ℚ).length
      ∧ (∀ y ∈ ([(5:ℚ), 5] : List ℚ), y = 5)
      ∧ (alphap_fiber_setup [(0:ℚ)] [5] [1, 2] = ([(1:ℚ), 2] : List ℚ).map (fun _ => 5)
        ∧ alphap_fiber_setup [(0:ℚ), 10] [5, 5] [1, 2]
          = ([(1:ℚ), 2] : List ℚ).map (fun _ => 5)
        ∧ cr_setup [(0:ℚ)] [5] [1, 2]
          = (freq_diff_matrix [(1:ℚ), 2]).map (fun row => row.map (fun _ => 5))
        ∧ cr_setup [(0:ℚ), 10] [5, 5] [1, 2]
          = (freq_diff_matrix [(1:ℚ), 2]).map (fun row => row.map (fun _ => 5))
        ∧ alphap_fiber_setup [(0:ℚ)] [5] [1, 2] = alphap_fiber_setup [(0:ℚ), 10] [5, 5] [1, 2]
        ∧ cr_setup [(0:ℚ)] [5] [1, 2] = cr_setup [(0:ℚ), 10] [5, 5] [1, 2]) :=
  ⟨by decide, by decide, by decide,
    claim_C9 5 [(0:ℚ)] [(0:ℚ), 10] [(5:ℚ), 5] [(1:ℚ), 2] (by decide) (by decide) (by decide)⟩

/-- Witness for C7 at a concrete one-slice input (empty gain/loss index sets). -/
theorem claim_C7_witness :
    ([fun _ => (1:ℝ)] : List (ℕ → ℝ)).length = 1
      ∧ (([[(4:ℝ)]] : List (List ℝ)).getD 0 []).length = 1
      ∧ (([[(0:ℝ)]] : List (List ℝ)).getD 0 []).length = 1
      ∧ ([(3:ℝ)] : List ℝ).length = 1 ∧ 0 < 1
      ∧ ([(0:ℝ)] : List ℝ).getD 0 0 = 0
      ∧ (ase_int (fun j => (j:ℝ)) [fun _ => 1] [2] [3] [[4]] [[0]] [0] 0 1
          = Real.exp (int_A_fun (fun j => (j:ℝ)) [fun _ => 1] [2] [3] [[4]] 0 1)
            * cumtrapz (fun j =>
                (h_planck * ([(3:ℝ)] : List ℝ).getD 0 0 * Bn
                  * ∑ jj in Finset.Ico 1 1,
                      (([[(4:ℝ)]] : List (List ℝ)).getD 0 []).getD jj 0
                        * (1 + 1 / (Real.exp (h_planck
                            * (([[(0:ℝ)]] : List (List ℝ)).getD 0 []).getD jj 0
                              / (kb * T)) - 1))
                        * ([fun _ => (1:ℝ)] : List (ℕ → ℝ)).getD jj (fun _ => 0) j)
                  * Real.exp (-(int_A_fun (fun j => (j:ℝ)) [fun _ => 1] [2] [3] [[4]] 0 j)))
                (fun j => (j:ℝ)) 1
          ∧ int_A_fun (fun j => (j:ℝ)) [fun _ => 1] [2] [3] [[4]] 0 1
            = -(([(2:ℝ)] : List ℝ).getD 0 0) * ((1:ℕ) : ℝ)
              + ∑ j in Finset.Ico 1 1,
                  (([[(4:ℝ)]] : List (List ℝ)).getD 0 []).getD j 0
                    * cumtrapz (([fun _ => (1:ℝ)] : List (ℕ → ℝ)).getD j (fun _ => 0))
                        (fun j => (j:ℝ)) 1
              + ∑ j in Finset.range 0,
                  (([[(4:ℝ)]] : List (List ℝ)).getD 0 []).getD j 0
                    * (([(3:ℝ)] : List ℝ).getD 0 0 / ([(3:ℝ)] : List ℝ).getD j 0)
                    * cumtrapz (([fun _ => (1:ℝ)] : List (ℕ → ℝ)).getD j (fun _ => 0))
                        (fun j => (j:ℝ)) 1) :=
  ⟨rfl, rfl, rfl, rfl, by decide, rfl,
    claim_C7 (fun j => (j:ℝ)) [fun _ => 1] [2] [3] [[4]] [[0]] [0] 1 0 1
      rfl rfl rfl rfl (by decide) rfl⟩

/-- Witness for C8 at a concrete one-slice input. -/
theorem claim_C8_witness :
    ([(0:ℝ)] : List ℝ).getD 0 0 = 0
      ∧ ase_int (fun j => (j:ℝ)) [fun _ => 1] [2] [3] [[4]] [[0]] [0] 0 0 = 0 :=
  ⟨rfl, claim_C8 (fun j => (j:ℝ)) [fun _ => 1] [2] [3] [[4]] [[0]] [0] 0 rfl⟩

/-- Witness for C10 at a concrete two-slice input with distinct frequencies. -/
theorem claim_C10_witness :
    ([(1:ℝ), 2] : List ℝ).length = 2 ∧ 0 < 2
      ∧ ((Real.exp (h_planck * ((freq_diff_matrix [(1:ℝ), 2]).getD 0 []).getD 0 0
            / (kb * T)) - 1 = 0)
        ∧ (∀ j ∈ Finset.Ico 1 2,
            0 < Real.exp (h_planck * ((freq_diff_matrix [(1:ℝ), 2]).getD 0 []).getD j 0
              / (kb * T)) - 1)
        ∧ (∀ (raman_matrix : List (ℕ → ℝ)) (cr : List (List ℝ)) (k : ℕ),
            raman_matrix.length = 2 → (cr.getD 0 []).length = 2 →
            B_fun raman_matrix [(1:ℝ), 2] cr (freq_diff_matrix [(1:ℝ), 2]) 0 k
              = ∑ j in Finset.Ico 1 2,
                  (cr.getD 0 []).getD j 0
                    * (1 + 1 / (Real.exp (h_planck
                        * ((freq_diff_matrix [(1:ℝ), 2]).getD 0 []).getD j 0 / (kb * T)) - 1))
                    * raman_matrix.getD j (fun _ => 0) k
                    * (h_planck * ([(1:ℝ), 2] : List ℝ).getD 0 0 * Bn))) :=
  ⟨rfl, by decide,
    claim_C10 [(1:ℝ), 2] 2 0 rfl (by decide)
      (by
        intro i j hi hj hne
        interval_cases i <;> interval_cases j <;>
          first
            | exact absurd rfl hne
            | norm_num [List.getD_cons_zero, List.getD_cons_succ])⟩

end Raman
